import Mathlib

/-!
# TSAR: array model, alias-tree rendering and Flang name matching

A shallow embedding of

* `src/tsar_array_subscript_delinearize.h` (`tsar::Array`, `Array::Element`,
  `DenseMapInfo<tsar::Array>`),
* `src/AliasTreePrinter.cpp` (`DOTGraphTraits<AliasTree *>`),
* `lib/Frontend/Flang/TransformationContext.cpp` (`collect`, `match`),
* `src/tsar_dbg_output.cpp` (`printLoops`),

together with the properties the specification states about them.

Conventions of the embedding.

* A pointer to an LLVM object (`llvm::Value *`, `const llvm::SCEV *`) is the
  address it holds, a natural number; `nullptr` is the address `0`.
* `std::size_t` indices are natural numbers (the guard `Idx >= 0` of the
  source is vacuous for an unsigned type and is kept as `0 ≤ Idx`).
* `std::vector` and `llvm::SmallVector` are lists; `push_back` appends at the
  end, `resize` truncates or pads with value-initialised entries.
* A function returning a pointer to an element (`Element *`) returns
  `Option Element`: `none` is `nullptr`, `some e` is a pointer to `e`.
-/

namespace tsar

/-- Address held by an `llvm::Value *`. -/
abbrev ValuePtr := Nat

/-- Address held by a `const llvm::SCEV *`. -/
abbrev SCEVPtr := Nat

/-- The null pointer. -/
def nullptr : Nat := 0

/-- Embeds `Array::ExprList`, a `SmallVector<const llvm::SCEV *, 4>`. -/
abbrev ExprList := List SCEVPtr

/-- Embeds `Array::Element`: pointer to an element of the array, the subscript
expressions recovered for it and its validity flag. -/
structure Array.Element where
  Ptr : ValuePtr
  Subscript : ExprList
  isValid : Bool
  deriving DecidableEq, Repr

/-- Embeds `Element(Ptr, Subscript, isValid)` with the flag given explicitly. -/
def Array.Element.ctor (Ptr : ValuePtr) (Subscript : ExprList) (isValid : Bool) :
    Array.Element :=
  { Ptr := Ptr, Subscript := Subscript, isValid := isValid }

/-- Embeds `Element(Ptr, Subscript)`: the flag takes its default argument `true`. -/
def Array.Element.ctorDefault (Ptr : ValuePtr) (Subscript : ExprList) : Array.Element :=
  Array.Element.ctor Ptr Subscript true

/-- Embeds `tsar::Array`: the private members `mBasePtr`, `mDims`, `mElements`,
`mIsArrayValid`. -/
structure Array where
  mBasePtr : ValuePtr
  mDims : ExprList
  mElements : List Array.Element
  mIsArrayValid : Bool
  deriving DecidableEq, Repr

namespace Array

/-- Embeds `Array(llvm::Value *BasePtr)`: `mDims` and `mElements` are
default-constructed (empty), `mIsArrayValid` is `true`. -/
def ctor (BasePtr : ValuePtr) : Array :=
  { mBasePtr := BasePtr, mDims := [], mElements := [], mIsArrayValid := true }

/-- Embeds `size()`. -/
def size (A : Array) : Nat := A.mElements.length

/-- Embeds `empty()`. -/
def empty (A : Array) : Bool := A.mElements.isEmpty

/-- Embeds `getElement(Idx)`: a pointer to `mElements[Idx]` when
`Idx >= 0 && Idx < mElements.size()`, `nullptr` otherwise. -/
def getElement (A : Array) (Idx : Nat) : Option Element :=
  if h : 0 ≤ Idx ∧ Idx < A.mElements.length then
    some (A.mElements.get ⟨Idx, h.2⟩)
  else
    none

/-- Embeds `pushBack(Access)`: `mElements.push_back(Access)`. -/
def pushBack (A : Array) (Access : Element) : Array :=
  { A with mElements := A.mElements ++ [Access] }

/-- Embeds `emplaceBack(Ptr, Subscript, isValid)`: the element is constructed in
place from the forwarded arguments. -/
def emplaceBack (A : Array) (Ptr : ValuePtr) (Subscript : ExprList) (isValid : Bool) : Array :=
  { A with mElements := A.mElements ++ [Element.ctor Ptr Subscript isValid] }

/-- Embeds `emplaceBack(Ptr, Subscript)`: as above with the default flag. -/
def emplaceBackDefault (A : Array) (Ptr : ValuePtr) (Subscript : ExprList) : Array :=
  { A with mElements := A.mElements ++ [Element.ctorDefault Ptr Subscript] }

/-- Embeds `clearDimensions()`. -/
def clearDimensions (A : Array) : Array :=
  { A with mDims := [] }

/-- Embeds `SmallVector::resize(Size)` on a vector of pointers: the first
`min(old size, Size)` entries are kept, new entries are null pointers. -/
def resizeVector (v : ExprList) (Size : Nat) : ExprList :=
  v.take Size ++ List.replicate (Size - v.length) nullptr

/-- Embeds `resizeDimensions(Size)`. -/
def resizeDimensions (A : Array) (Size : Nat) : Array :=
  { A with mDims := resizeVector A.mDims Size }

/-- Embeds `setDimension(DimIdx, Expr)`: `mDims[DimIdx] = Expr` when
`DimIdx >= 0 && DimIdx < mDims.size()`, nothing otherwise. -/
def setDimension (A : Array) (DimIdx : Nat) (Expr : SCEVPtr) : Array :=
  if 0 ≤ DimIdx ∧ DimIdx < A.mDims.length then
    { A with mDims := A.mDims.set DimIdx Expr }
  else
    A

/-- Embeds `getDimension(DimIdx)`: `mDims[DimIdx]` when in range, `nullptr`
otherwise. -/
def getDimension (A : Array) (DimIdx : Nat) : SCEVPtr :=
  if h : 0 ≤ DimIdx ∧ DimIdx < A.mDims.length then
    A.mDims.get ⟨DimIdx, h.2⟩
  else
    nullptr

/-- Embeds `getDimensions()`. -/
def getDimensions (A : Array) : ExprList := A.mDims

/-- Embeds `getDimensionsCount()`. -/
def getDimensionsCount (A : Array) : Nat := A.mDims.length

/-- Embeds `isDimensionsEmpty()`. -/
def isDimensionsEmpty (A : Array) : Bool := A.mDims.isEmpty

/-- Embeds `getBase()`. -/
def getBase (A : Array) : ValuePtr := A.mBasePtr

/-- Embeds `isValid()`. -/
def isValid (A : Array) : Bool := A.mIsArrayValid

/-- Embeds `setValid(Valid)`. -/
def setValid (A : Array) (Valid : Bool) : Array :=
  { A with mIsArrayValid := Valid }

end Array

/-- One call of a mutating member function of `tsar::Array`, with its
arguments. -/
inductive ArrayOp where
  | pushBack (Access : Array.Element)
  | emplaceBack (Ptr : ValuePtr) (Subscript : ExprList) (isValid : Bool)
  | emplaceBackDefault (Ptr : ValuePtr) (Subscript : ExprList)
  | clearDimensions
  | resizeDimensions (Size : Nat)
  | setDimension (DimIdx : Nat) (Expr : SCEVPtr)
  | setValid (Valid : Bool)
  deriving DecidableEq, Repr

/-- The array after one call. -/
def ArrayOp.run (A : Array) : ArrayOp → Array
  | .pushBack Access => A.pushBack Access
  | .emplaceBack Ptr Subscript isValid => A.emplaceBack Ptr Subscript isValid
  | .emplaceBackDefault Ptr Subscript => A.emplaceBackDefault Ptr Subscript
  | .clearDimensions => A.clearDimensions
  | .resizeDimensions Size => A.resizeDimensions Size
  | .setDimension DimIdx Expr => A.setDimension DimIdx Expr
  | .setValid Valid => A.setValid Valid

/-- The array after a sequence of calls, first call first. -/
def runOps (A : Array) (ops : List ArrayOp) : Array :=
  ops.foldl ArrayOp.run A

end tsar

/-! ## `llvm::DenseMapInfo<tsar::Array>` -/

namespace llvm

open tsar

/-- Embeds `DenseMapInfo<Value *>::isEqual(LHS, RHS)`: LLVM compares the two
pointers. -/
def DenseMapInfoValuePtr.isEqual (LHS RHS : ValuePtr) : Bool := LHS == RHS

namespace DenseMapInfoArray

/-- Embeds `getHashValue(const tsar::Array &Arr)`. The hash of a pointer,
`DenseMapInfo<Value *>::getHashValue`, is LLVM's and is the parameter
`ptrHash`. -/
def getHashValue (ptrHash : ValuePtr → Nat) (Arr : Array) : Nat :=
  ptrHash Arr.getBase

/-- Embeds `isEqual(const tsar::Array &LHS, const tsar::Array &RHS)`. -/
def isEqual (LHS RHS : Array) : Bool :=
  DenseMapInfoValuePtr.isEqual LHS.getBase RHS.getBase

/-- Embeds `getHashValue(llvm::Value *Arr)`. -/
def getHashValuePtr (ptrHash : ValuePtr → Nat) (Arr : ValuePtr) : Nat :=
  ptrHash Arr

/-- Embeds `isEqual(llvm::Value *LHS, const tsar::Array &RHS)`. -/
def isEqualPtr (LHS : ValuePtr) (RHS : Array) : Bool :=
  DenseMapInfoValuePtr.isEqual LHS RHS.getBase

end DenseMapInfoArray

end llvm

/-! ## `DOTGraphTraits<AliasTree *>` (`src/AliasTreePrinter.cpp`) -/

namespace llvm

/-- An `llvm::Value` as far as the alias-tree printer inspects it: whether it
is a `Function`, whether it is a call site (a call or invoke instruction, with
its called value), and whether it is a pointer cast that
`stripPointerCasts` looks through. -/
inductive Value where
  | function (name : String)
  | ptrCast (operand : Value)
  | call (id : Nat) (calledValue : Value)
  | other (id : Nat)
  deriving DecidableEq, Repr

namespace Value

/-- Embeds `isa<Function>(V)`. -/
def isFunction : Value → Bool
  | .function _ => true
  | _ => false

/-- Embeds `V->stripPointerCasts()`: the value under all pointer casts. -/
def stripPointerCasts : Value → Value
  | .ptrCast operand => stripPointerCasts operand
  | V => V

/-- Embeds `ImmutableCallSite CS(V)` followed by `CS.getCalledValue()`: `none` when
`!CS`, that is when `V` is not a call site. -/
def callSiteCalledValue : Value → Option Value
  | .call _ calledValue => some calledValue
  | _ => none

end Value

/-- Embeds `MemoryLocation::UnknownSize`, the `uint64_t` value `~UINT64_C(0)`. -/
def MemoryLocation.UnknownSize : Nat := 2 ^ 64 - 1

/-- The renderers of the host the printer calls: `Value::printAsOperand(OS,
PrintType)`, `Value::print(OS, IsForDebug)` and `tsar::printLocationSource`
applied to `MemoryLocation(Ptr, Size, AAInfo)`; each gives the text it writes
to the stream. -/
structure Renderer where
  printAsOperand : Value → Bool → String
  print : Value → Bool → String
  printLocationSource : Value → Nat → String

end llvm

namespace tsar

open llvm

/-- Embeds `EstimateMemory`, a memory cluster of an estimate node: the pointer values
it iterates over (`front()` first), its size and whether it is ambiguous. Its
alias metadata (`getAAInfo()`) is only handed to `printLocationSource` and is
left out. -/
structure EstimateMemory where
  front : Value
  rest : List Value
  getSize : Nat
  isAmbiguous : Bool
  deriving DecidableEq, Repr

/-- The pointer values `for (auto Ptr : EM)` visits, in order. -/
def EstimateMemory.pointers (EM : EstimateMemory) : List Value :=
  EM.front :: EM.rest

/-- Embeds `AliasNode` with its three kinds (`AliasNode::KindList`): the top node,
an estimate node with its clusters in iteration order, an unknown node with
its member instructions in iteration order. -/
inductive AliasNode where
  | AliasTopNode
  | AliasEstimateNode (clusters : List EstimateMemory)
  | AliasUnknownNode (members : List Value)
  deriving DecidableEq, Repr

/-- Embeds `isa<AliasUnknownNode>(N)`. -/
def AliasNode.isUnknown : AliasNode → Bool
  | .AliasUnknownNode _ => true
  | _ => false

/-- Embeds `AliasTree`: the nodes it owns. -/
structure AliasTree where
  nodes : List AliasNode
  deriving DecidableEq, Repr

end tsar

namespace llvm

open tsar

namespace DOTGraphTraits

/-- Embeds `GT::ChildIteratorType`, a position in the children of a node. -/
abbrev EdgeItr := Nat

/-- Embeds `getNodeLabel(AliasTopNode *, AliasTree *)`. -/
def getNodeLabelTop : String := "Whole Memory"

/-- The text written for a pointer of a cluster: `printAsOperand(OS)` (its
`PrintType` defaults to `true`) for a function, `print(OS, true)` otherwise. -/
def printPointer (R : Renderer) (Ptr : Value) : String :=
  if Ptr.isFunction then R.printAsOperand Ptr true else R.print Ptr true

/-- The body of the loop `for (auto &EM : *N)` of
`getNodeLabel(AliasEstimateNode *, AliasTree *)`: the stream `OS` after the
cluster `EM` is printed. Each `OS << x` appends `x`. -/
def printCluster (R : Renderer) (IsSimple : Bool) (OS : String) (EM : EstimateMemory) :
    String :=
  if IsSimple then
    (OS ++ R.printLocationSource EM.front EM.getSize) ++ " "
  else if EM.isAmbiguous then
    let OS := OS ++ "Ambiguous, size "
    let OS :=
      if EM.getSize = MemoryLocation.UnknownSize then OS ++ "unknown\\l"
      else (OS ++ toString EM.getSize) ++ "\\l"
    EM.pointers.foldl (fun OS Ptr => ((OS ++ "  ") ++ printPointer R Ptr) ++ "\\l") OS
  else
    let OS := OS ++ printPointer R EM.front
    let OS := OS ++ ", size "
    if EM.getSize = MemoryLocation.UnknownSize then OS ++ "unknown\\l"
    else (OS ++ toString EM.getSize) ++ "\\l"

/-- Embeds `getNodeLabel(AliasEstimateNode *N, AliasTree *)`. -/
def getNodeLabelEstimate (R : Renderer) (IsSimple : Bool) (N : List EstimateMemory) : String :=
  N.foldl (printCluster R IsSimple) ""

/-- The value of the lambda in `getNodeLabel(AliasUnknownNode *)`:
`!CS ? nullptr : dyn_cast<Function>(CS.getCalledValue()->stripPointerCasts())`
(`none` is `nullptr`). -/
def calleeOf (Unknown : Value) : Option Value :=
  match Unknown.callSiteCalledValue with
  | none => none
  | some calledValue =>
    if calledValue.stripPointerCasts.isFunction then some calledValue.stripPointerCasts
    else none

/-- The body of the loop `for (auto &Unknown : *N)` of
`getNodeLabel(AliasUnknownNode *, AliasTree *)`. -/
def printUnknown (R : Renderer) (IsSimple : Bool) (OS : String) (Unknown : Value) : String :=
  if IsSimple then
    let OS :=
      match calleeOf Unknown with
      | some Callee => OS ++ R.printAsOperand Callee false
      | none => OS ++ R.printAsOperand Unknown false
    OS ++ " "
  else if Unknown.isFunction then
    (OS ++ R.printAsOperand Unknown true) ++ "\\l"
  else
    (OS ++ R.print Unknown true) ++ "\\l"

/-- Embeds `getNodeLabel(AliasUnknownNode *N, AliasTree *)`. -/
def getNodeLabelUnknown (R : Renderer) (IsSimple : Bool) (N : List Value) : String :=
  N.foldl (printUnknown R IsSimple) ("" ++ "Unknown Memory\n")

/-- Embeds `getNodeLabel(AliasNode *N, AliasTree *G)`: the label of the overload for
the kind of `N`. -/
def getNodeLabel (R : Renderer) (IsSimple : Bool) (N : AliasNode) (_G : AliasTree) : String :=
  match N with
  | .AliasTopNode => getNodeLabelTop
  | .AliasEstimateNode clusters => getNodeLabelEstimate R IsSimple clusters
  | .AliasUnknownNode members => getNodeLabelUnknown R IsSimple members

/-- Embeds `getEdgeAttributes(AliasNode *N, EdgeItr, const AliasTree *)`. -/
def getEdgeAttributes (N : AliasNode) (_E : EdgeItr) (_G : AliasTree) : String :=
  if N.isUnknown then "style=dashed" else ""

end DOTGraphTraits

end llvm

/-! ## Name matching (`lib/Frontend/Flang/TransformationContext.cpp`) -/

namespace tsar

/-- Embeds `try_emplace(k, v)` on a map kept as the list of its entries in insertion
order: nothing happens when `k` has an entry, otherwise `(k, v)` is added. -/
def tryEmplace {κ ν : Type} [BEq κ] (m : List (κ × ν)) (k : κ) (v : ν) : List (κ × ν) :=
  match m.lookup k with
  | some _ => m
  | none => m ++ [(k, v)]

/-- Embeds `NameHierarchyMapT`, a `std::map<SmallVector<std::string, 3>, std::string>`;
`find(k)` is `List.lookup k`. -/
abbrev NameHierarchyMapT := List (List String × String)

end tsar

namespace llvm

/-- Value of a `DIScope *`: null, or a scope object with its address, its
`getName()` and its `getScope()`. -/
inductive DIScope where
  | null
  | node (addr : Nat) (getName : String) (getScope : DIScope)
  deriving DecidableEq, Repr

/-- A `DISubprogram`: its `getName()`, `getScope()` and `getUnit()` (the
address of its compile unit, `0` when null). -/
structure DISubprogram where
  getName : String
  getScope : DIScope
  getUnit : Nat
  deriving DecidableEq, Repr

/-- An `llvm::Function` of a module: `getName()` and `getSubprogram()`
(`none` when null). -/
structure Function where
  getName : String
  getSubprogram : Option DISubprogram
  deriving DecidableEq, Repr

/-- An `llvm::Module` as the list of its functions, in module order. -/
abbrev Module := List Function

end llvm

namespace tsar

open llvm

/-- The `do ... while` loop of `collect` from the point where
`Scope = Scope->getScope()` has just been executed: `Scope` is the first
argument, `Key` the second and `CU` is the address `&CU`. The result is `Key`
after the loop and whether `Scope == &CU` holds there. The loop ends when
`Scope` is `&CU` or null; otherwise the body runs again, breaks on an empty
name and else pushes the name and moves to the enclosing scope. -/
def collectLoop (CU : Nat) : DIScope → List String → List String × Bool
  | .null, Key => (Key, false)
  | .node addr getName getScope, Key =>
    if addr = CU then (Key, true)
    else if getName = "" then (Key, false)
    else collectLoop CU getScope (Key ++ [getName])

/-- The body of the loop `for (auto &F : M)` of `collect`. In the first
iteration of the `do ... while` loop `Scope` is `DISub` itself, a
`DISubprogram`, which is not the object `CU`: with an empty name the loop
breaks and the function is skipped, otherwise `Key` holds that name and
`collectLoop` continues from `DISub->getScope()`. -/
def collectFunction (CU : Nat) (NameHierarchy : NameHierarchyMapT) (F : Function) :
    NameHierarchyMapT :=
  match F.getSubprogram with
  | some DISub =>
    if DISub.getUnit = CU then
      if DISub.getName = "" then NameHierarchy
      else
        match collectLoop CU DISub.getScope [DISub.getName] with
        | (Key, true) => tryEmplace NameHierarchy Key.reverse F.getName
        | (_, false) => NameHierarchy
    else NameHierarchy
  | none => NameHierarchy

/-- Embeds `collect(M, CU, NameHierarchy)`. -/
def collect (M : Module) (CU : Nat) (NameHierarchy : NameHierarchyMapT) : NameHierarchyMapT :=
  M.foldl (collectFunction CU) NameHierarchy

end tsar

namespace Fortran.semantics

/-- A `semantics::Symbol`, identified by its address, with its `name()`. -/
structure Symbol where
  addr : Nat
  name : String
  deriving DecidableEq, Repr

/-- Embeds `Scope::Kind`. -/
inductive Scope.Kind where
  | Global | Module | MainProgram | Subprogram | BlockData | DerivedType | Block | Forall
  | ImpliedDos
  deriving DecidableEq, Repr

/-- A `semantics::Scope`: its `symbol()` (`none` when null), its `kind()` and
its `children()`. -/
inductive Scope where
  | mk (symbol : Option Symbol) (kind : Scope.Kind) (children : List Scope)

end Fortran.semantics

namespace tsar

open Fortran.semantics

/-- Embeds `MangledToSourceMapT`, an `llvm::StringMap<semantics::Symbol *>`. -/
abbrev MangledToSourceMapT := List (String × Symbol)

mutual
/-- Embeds `match(Parent, Names, NameHierarchy, Map)`: `Names` and `Map` are passed
by reference, the result is their value on return. -/
def matchScope : Scope → List String → NameHierarchyMapT → MangledToSourceMapT →
    List String × MangledToSourceMapT
  | .mk (some S) kind children, Names, NameHierarchy, Map =>
    let Names := Names ++ [S.name]
    let Map :=
      if kind = Scope.Kind.Subprogram then
        match NameHierarchy.lookup Names with
        | some I => tryEmplace Map I S
        | none => Map
      else Map
    let r := matchChildren children Names NameHierarchy Map
    (r.1.dropLast, r.2)
  | .mk none _ _, Names, _, Map => (Names, Map)
/-- The loop `for (auto &Child : Parent.children()) match(Child, ...)`. -/
def matchChildren : List Scope → List String → NameHierarchyMapT → MangledToSourceMapT →
    List String × MangledToSourceMapT
  | [], Names, _, Map => (Names, Map)
  | Child :: rest, Names, NameHierarchy, Map =>
    let r := matchScope Child Names NameHierarchy Map
    matchChildren rest r.1 NameHierarchy r.2
end

/-- The loop of `FlangTransformationContext::initializeDemangler` over the
children of the global scope, each matched with a fresh empty `Names`. -/
def matchGlobals (children : List Scope) (NameHierarchy : NameHierarchyMapT)
    (mGlobals : MangledToSourceMapT) : MangledToSourceMapT :=
  children.foldl (fun Map Child => (matchScope Child [] NameHierarchy Map).2) mGlobals

/-- Embeds `FlangTransformationContext::initializeDemangler(M, CU)` on the children of
the global scope and the current `mGlobals`. -/
def initializeDemangler (M : llvm.Module) (CU : Nat) (globalChildren : List Scope)
    (mGlobals : MangledToSourceMapT) : MangledToSourceMapT :=
  matchGlobals globalChildren (collect M CU []) mGlobals

end tsar

/-! ## Specification side of the rendering claims -/

namespace llvm

open tsar

/-- Concatenation of the entries of a label, first entry first. -/
def concatEntries : List String → String
  | [] => ""
  | s :: rest => s ++ concatEntries rest

/-- Modelled from the spec: the parent and child relation of the alias tree
(`AliasNode` and `GraphTraits<AliasTree *>` of `EstimateMemory.h`, which is not
among the sources). The tree is rooted, finite and acyclic and every node
except the root has exactly one parent: a node comes with the subtrees of its
children, in the order its child iterators run over them, and the parent of a
node is the node it is a child of. -/
inductive AliasSubtree where
  | mk (node : AliasNode) (children : List AliasSubtree)

/-- The node at the root of the subtree. -/
def AliasSubtree.node : AliasSubtree → AliasNode
  | .mk node _ => node

/-- The subtrees of the children of the node. -/
def AliasSubtree.children : AliasSubtree → List AliasSubtree
  | .mk _ children => children

/-- The child `*E` a child iterator `E` of the node of `P` points to, `none`
at `child_end()` or beyond. -/
def AliasSubtree.child (P : AliasSubtree) (E : Nat) : Option AliasSubtree :=
  P.children.get? E

namespace DOTGraphTraits

/-- The attributes of the edge between the node of `P` and its child `*E`.
`EdgeItr` is the child iterator type of the graph, and the graph writer asks
for the attributes of an edge with `getEdgeAttributes(N, E, G)`, where `N` is
the node the child iterator `E` belongs to, that is the parent end of the
edge. The result is `none` when `E` points to no child. -/
def edgeAttributesToChild (P : AliasSubtree) (E : EdgeItr) (G : AliasTree) : Option String :=
  match P.child E with
  | some _ => some (getEdgeAttributes P.node E G)
  | none => none

/-- The value a member of an unknown node is shown as in summary rendering,
in the words of the specification: the callee when the member is a call whose
called value is a function once pointer casts are stripped, the member itself
in every other case. -/
def shownValue : Value → Value
  | .call id calledValue =>
    if calledValue.stripPointerCasts.isFunction then calledValue.stripPointerCasts
    else .call id calledValue
  | Unknown => Unknown

/-- The size text of a cluster in the words of the specification: `unknown`
for `MemoryLocation::UnknownSize`, the number otherwise. -/
def sizeText (size : Nat) : String :=
  if size = MemoryLocation.UnknownSize then "unknown" else toString size

/-- The text that shows a pointer value of a cluster: the host's operand text
(with the type) of a function, the host's full text of any other value. -/
def pointerText (R : Renderer) : Value → String
  | .function name => R.printAsOperand (.function name) true
  | .ptrCast operand => R.print (.ptrCast operand) true
  | .call id calledValue => R.print (.call id calledValue) true
  | .other id => R.print (.other id) true

/-- The entry of a cluster in detailed rendering, in the words of the
specification: for an ambiguous cluster the heading with the size and then
every pointer value of the cluster on a line of its own, for an unambiguous
cluster the front pointer followed by the size. -/
def clusterEntry (R : Renderer) (EM : EstimateMemory) : String :=
  if EM.isAmbiguous then
    ("Ambiguous, size " ++ sizeText EM.getSize ++ "\\l") ++
      concatEntries ((EM.front :: EM.rest).map (fun Ptr => "  " ++ pointerText R Ptr ++ "\\l"))
  else
    pointerText R EM.front ++ (", size " ++ sizeText EM.getSize ++ "\\l")

end DOTGraphTraits

end llvm

/-! ## Specification side of the name-matching claims -/

namespace tsar

open llvm

/-- The key `collect` computes for a function, `none` when the function is
skipped: the test on the subprogram and its unit, the loop over the scopes and
the test `Scope != &CU` of `collectFunction`, without the insertion. -/
def functionKey (CU : Nat) (F : Function) : Option (List String) :=
  match F.getSubprogram with
  | some DISub =>
    if DISub.getUnit = CU then
      if DISub.getName = "" then none
      else
        match collectLoop CU DISub.getScope [DISub.getName] with
        | (Key, true) => some Key.reverse
        | (_, false) => none
    else none
  | none => none

/-- The chain of scopes followed through `getScope()` from the scope `s`
reaches the compile unit at address `CU`, passing only through scopes with
non-empty names; the list holds the names of the scopes passed, innermost
first. -/
inductive ReachesCU (CU : Nat) : DIScope → List String → Prop where
  | here (getName : String) (getScope : DIScope) :
      ReachesCU CU (DIScope.node CU getName getScope) []
  | step (addr : Nat) (getName : String) (getScope : DIScope) (names : List String) :
      addr ≠ CU → getName ≠ "" → ReachesCU CU getScope names →
      ReachesCU CU (DIScope.node addr getName getScope) (getName :: names)

/-- In the words of the specification: `F` has a debug subprogram whose unit
is `CU` and whose scope chain reaches `CU` through named scopes only, and
`Key` is the list of the names on the chain, outermost first, the name of the
subprogram last. -/
def Recordable (CU : Nat) (F : Function) (Key : List String) : Prop :=
  ∃ (DISub : DISubprogram) (names : List String),
    F.getSubprogram = some DISub ∧ DISub.getUnit = CU ∧ DISub.getName ≠ "" ∧
    ReachesCU CU DISub.getScope names ∧ Key = (DISub.getName :: names).reverse

end tsar

namespace tsar

open Fortran.semantics

/-- In the words of the specification: `Target` is reachable from `Root`
through scopes that all have a symbol (`Root` and `Target` included), and
`path` is `Names` followed by the symbol names on the way from `Root` to
`Target`, outermost first. -/
inductive ReachesScope : Scope → List String → Scope → List String → Prop where
  | root (S : Symbol) (kind : Scope.Kind) (children : List Scope) (Names : List String) :
      ReachesScope (Scope.mk (some S) kind children) Names
        (Scope.mk (some S) kind children) (Names ++ [S.name])
  | child (S : Symbol) (kind : Scope.Kind) (children : List Scope) (Names : List String)
      (Child Target : Scope) (path : List String) :
      Child ∈ children → ReachesScope Child (Names ++ [S.name]) Target path →
      ReachesScope (Scope.mk (some S) kind children) Names Target path

mutual
/-- The entries offered to the map, in the order `match` visits the scopes
(a scope before its children, children in order): one entry
`(NameHierarchy[path], symbol)` for every `Subprogram` scope reached through
scopes with a symbol whose path is a key of `NameHierarchy`. -/
def offeredEntries : Scope → List String → NameHierarchyMapT → List (String × Symbol)
  | .mk (some S) kind children, Names, NameHierarchy =>
    (if kind = Scope.Kind.Subprogram then
      match NameHierarchy.lookup (Names ++ [S.name]) with
      | some I => [(I, S)]
      | none => []
    else []) ++ offeredEntriesChildren children (Names ++ [S.name]) NameHierarchy
  | .mk none _ _, _, _ => []
/-- The entries offered by a list of sibling scopes. -/
def offeredEntriesChildren : List Scope → List String → NameHierarchyMapT →
    List (String × Symbol)
  | [], _, _ => []
  | Child :: rest, Names, NameHierarchy =>
    offeredEntries Child Names NameHierarchy ++ offeredEntriesChildren rest Names NameHierarchy
end

/-- Insertion of a list of entries with `try_emplace`, first entry first. -/
def tryEmplaceAll (Map : MangledToSourceMapT) (entries : List (String × Symbol)) :
    MangledToSourceMapT :=
  entries.foldl (fun m e => tryEmplace m e.1 e.2) Map

end tsar

/-! ## Loop output (`src/tsar_dbg_output.cpp`) -/

namespace llvm

/-- An `llvm::Loop`: the text `getStartLoc().print(o)` writes for it and its
sub-loops in the order of `begin()` to `end()`. -/
inductive Loop where
  | mk (getStartLoc : String) (subLoops : List Loop)
  deriving Repr

/-- Text written for `L->getStartLoc()`. -/
def Loop.getStartLoc : Loop → String
  | .mk getStartLoc _ => getStartLoc

/-- The sub-loops of `L`, in the order of `begin()` to `end()`. -/
def Loop.subLoops : Loop → List Loop
  | .mk _ subLoops => subLoops

/-- An `llvm::LoopInfo` as the list of its top-level loops, in the order of
`begin()` to `end()`. -/
abbrev LoopInfo := List Loop

/-- Dereference of a `reverse_iterator` over the container `c`. A reverse
iterator is its distance from `rbegin()`: `rbegin()` is `0`, `rend()` is the
size of `c`, `*it` is the element of the reversed container at that distance;
there is none at `rend()` or beyond. -/
def derefReverse (c : List Loop) (it : Nat) : Option Loop :=
  c.reverse.get? it

end llvm

namespace tsar

open llvm

/-- The statement `for (; ReverseI != ReverseEI; --ReverseEI) body`, with the
stream `o` passed through `body`. The result is `none` when the body has no
result or when `--ReverseEI` is applied to `rbegin()`. -/
def forReverse (body : String → Option String) (ReverseI : Nat) : Nat → String → Option String
  | 0, o => if ReverseI = 0 then some o else none
  | ReverseEI + 1, o =>
    if ReverseI = ReverseEI + 1 then some o
    else (body o).bind (forReverse body ReverseI ReverseEI)

/-- Embeds `printLoops(o, Offset, ReverseI, ReverseEI)` of the anonymous namespace,
for iterators over the container `c`. The first argument bounds the depth of
the recursive calls; the result is `none` when that bound is reached or when an
iterator is used outside its range, and the text of `o` after the call
otherwise. -/
def printLoops : Nat → String → String → List Loop → Nat → Nat → Option String
  | 0, _, _, _, _, _ => none
  | fuel + 1, o, Offset, c, ReverseI, ReverseEI =>
    forReverse
      (fun o =>
        match derefReverse c ReverseI with
        | none => none
        | some L =>
          printLoops fuel (((o ++ (Offset ++ "- ")) ++ L.getStartLoc) ++ "\n")
            (Offset ++ "\t") L.subLoops 0 L.subLoops.length)
      ReverseI ReverseEI o

/-- Embeds `tsar::printLoops(o, LI)`: the call
`printLoops(o, "", LI.rbegin(), LI.rend())`. -/
def printLoopsLI (fuel : Nat) (o : String) (LI : LoopInfo) : Option String :=
  printLoops fuel o "" LI 0 LI.length

mutual
/-- Nesting depth of a loop: `1` for a loop without sub-loops. -/
def loopDepth : Loop → Nat
  | .mk _ subLoops => forestDepth subLoops + 1
/-- Nesting depth of a list of sibling loops, `0` for the empty list. -/
def forestDepth : List Loop → Nat
  | [] => 0
  | L :: rest => max (loopDepth L) (forestDepth rest)
end

mutual
/-- The lines of a loop in the words of the specification: the line of the
loop with its start location, immediately followed by the lines of its
sub-loops, printed the same way with one more tab. -/
def linesOfLoop : Loop → String → String
  | .mk getStartLoc subLoops, Offset =>
    (((Offset ++ "- ") ++ getStartLoc) ++ "\n") ++ linesOfLoops subLoops (Offset ++ "\t")
/-- The lines of the loops of one level in the words of the specification:
every loop once, in reverse order of the container. -/
def linesOfLoops : List Loop → String → String
  | [], _ => ""
  | L :: rest, Offset => linesOfLoops rest Offset ++ linesOfLoop L Offset
end

end tsar

/-! ## Properties of the array model -/

namespace tsar

theorem getElement_eq_get? (A : Array) (i : Nat) : A.getElement i = A.mElements.get? i := by
  unfold Array.getElement
  split
  · next h => simp [List.getElem?_eq_getElem h.2]
  · next h =>
    have : A.mElements.length ≤ i := by omega
    simp [List.getElem?_eq_none this]

theorem getDimension_eq_getD (A : Array) (i : Nat) : A.getDimension i = A.mDims.getD i nullptr := by
  unfold Array.getDimension
  split
  · next h => simp [List.getD_eq_getElem?_getD, List.getElem?_eq_getElem h.2]
  · next h =>
    have : A.mDims.length ≤ i := by omega
    simp [List.getD_eq_getElem?_getD, List.getElem?_eq_none this]

/-- C1: `pushBack(E)` appends `E` at the end of the elements of `A`, whatever
`E` is (valid or not, any subscript list): the size grows by exactly one,
`getElement(old size)` is an element with the pointer, subscripts and flag of
`E`, every element at an index below the old size is still there unchanged,
and base, dimensions and validity flag of `A` are unchanged. `emplaceBack`
does the same with the element constructed from its arguments. -/
theorem pushBack_appends (A : Array) (E : Array.Element) :
    (A.pushBack E).size = A.size + 1 ∧
    (∃ e, (A.pushBack E).getElement A.size = some e ∧
      e.Ptr = E.Ptr ∧ e.Subscript = E.Subscript ∧ e.isValid = E.isValid) ∧
    (∀ i, i < A.size →
      ∃ e, A.getElement i = some e ∧ (A.pushBack E).getElement i = some e) ∧
    (A.pushBack E).getBase = A.getBase ∧
    (A.pushBack E).getDimensions = A.getDimensions ∧
    (A.pushBack E).isValid = A.isValid ∧
    (∀ P S v, A.emplaceBack P S v = A.pushBack (Array.Element.ctor P S v) ∧
      (Array.Element.ctor P S v).Ptr = P ∧ (Array.Element.ctor P S v).Subscript = S ∧
      (Array.Element.ctor P S v).isValid = v) ∧
    (∀ P S, A.emplaceBackDefault P S = A.pushBack (Array.Element.ctorDefault P S)) := by
  refine ⟨?_, ?_, ?_, rfl, rfl, rfl, ?_, ?_⟩
  · simp [Array.pushBack, Array.size]
  · refine ⟨E, ?_, rfl, rfl, rfl⟩
    rw [getElement_eq_get?]
    simp [Array.pushBack, Array.size]
  · intro i hi
    refine ⟨A.mElements.get ⟨i, hi⟩, ?_, ?_⟩
    · rw [getElement_eq_get?]; simp [List.getElem?_eq_getElem hi]
    · rw [getElement_eq_get?]
      simp only [Array.pushBack, List.get?_eq_getElem?]
      rw [List.getElem?_append_left hi]
      simp [List.getElem?_eq_getElem hi]
  · intro P S v
    exact ⟨rfl, rfl, rfl, rfl⟩
  · intro P S
    rfl

end tsar

namespace tsar

theorem run_isValid_of_not_setValid (A : Array) (op : ArrayOp)
    (h : ∀ v, op ≠ ArrayOp.setValid v) : (op.run A).isValid = A.isValid := by
  cases op with
  | setValid v => exact absurd rfl (h v)
  | setDimension i E =>
    simp only [ArrayOp.run, Array.setDimension]
    split <;> rfl
  | _ => rfl

theorem runOps_invalid_cases (ops : List ArrayOp) :
    ∀ A : Array, (runOps A ops).isValid = false →
      A.isValid = false ∨ ArrayOp.setValid false ∈ ops := by
  induction ops with
  | nil => intro A h; exact Or.inl h
  | cons op rest ih =>
    intro A h
    have h' : (runOps (op.run A) rest).isValid = false := h
    rcases ih (op.run A) h' with h1 | h1
    · by_cases hs : ∃ v, op = ArrayOp.setValid v
      · obtain ⟨v, rfl⟩ := hs
        have hv : v = false := h1
        subst hv
        exact Or.inr (List.mem_cons_self _ _)
      · have hs' : ∀ v, op ≠ ArrayOp.setValid v := fun v hv => hs ⟨v, hv⟩
        rw [run_isValid_of_not_setValid A op hs'] at h1
        exact Or.inl h1
    · exact Or.inr (List.mem_cons_of_mem _ h1)

/-- C2: identity of an `Array` in the `DelinearizeInfo` set is decided by the
base pointer alone: `isEqual(A, B)` holds iff the bases are equal (so arrays
that differ only in dimensions, elements or validity are equal),
`getHashValue(A)` is the hash of the base, equal arrays have equal hashes, and
the pointer-keyed overloads agree with the array-keyed ones. -/
theorem denseMapInfo_keyed_by_base (ptrHash : ValuePtr → Nat) (A B : Array) (P : ValuePtr) :
    (llvm.DenseMapInfoArray.isEqual A B = true ↔ A.getBase = B.getBase) ∧
    (∀ dims elems valid, llvm.DenseMapInfoArray.isEqual A
      { A with mDims := dims, mElements := elems, mIsArrayValid := valid } = true) ∧
    llvm.DenseMapInfoArray.getHashValue ptrHash A = ptrHash A.getBase ∧
    llvm.DenseMapInfoArray.getHashValue ptrHash A =
      llvm.DenseMapInfoArray.getHashValuePtr ptrHash A.getBase ∧
    (llvm.DenseMapInfoArray.isEqual A B = true →
      llvm.DenseMapInfoArray.getHashValue ptrHash A =
        llvm.DenseMapInfoArray.getHashValue ptrHash B) ∧
    (llvm.DenseMapInfoArray.isEqualPtr P A = true ↔ P = A.getBase) ∧
    llvm.DenseMapInfoArray.getHashValuePtr ptrHash P =
      llvm.DenseMapInfoArray.getHashValue ptrHash (Array.ctor P) := by
  refine ⟨?_, ?_, rfl, rfl, ?_, ?_, rfl⟩
  · simp [llvm.DenseMapInfoArray.isEqual, llvm.DenseMapInfoValuePtr.isEqual]
  · intro dims elems valid
    simp [llvm.DenseMapInfoArray.isEqual, llvm.DenseMapInfoValuePtr.isEqual, Array.getBase]
  · intro h
    have hb : A.getBase = B.getBase := by
      simpa [llvm.DenseMapInfoArray.isEqual, llvm.DenseMapInfoValuePtr.isEqual] using h
    simp [llvm.DenseMapInfoArray.getHashValue, hb]
  · simp [llvm.DenseMapInfoArray.isEqualPtr, llvm.DenseMapInfoValuePtr.isEqual]

/-- C3: dimensions are replaced by index. For every array `A`: for an index
`i` below the dimension count, `setDimension(i, E)` replaces entry `i`, so
`getDimension(i)` is `E` afterwards, every other `getDimension(j)` and the
count are unchanged, and so are base, elements and validity flag. For every
`n`, whatever `A` holds, `resizeDimensions(n)` makes the count exactly `n`,
keeps the first `min(old count, n)` entries and touches nothing else. Hence a
dimension that was not present (in particular on a new array, whose count is
`0`) can be added with `resizeDimensions` and `setDimension` and read back. -/
theorem setDimension_replaces_by_index (A : Array) :
    (∀ (i : Nat) (E : SCEVPtr), i < A.getDimensionsCount →
      (A.setDimension i E).getDimension i = E ∧
      (∀ j, j ≠ i → (A.setDimension i E).getDimension j = A.getDimension j) ∧
      (A.setDimension i E).getDimensionsCount = A.getDimensionsCount ∧
      (A.setDimension i E).getBase = A.getBase ∧
      (A.setDimension i E).mElements = A.mElements ∧
      (A.setDimension i E).isValid = A.isValid) ∧
    (∀ n, (A.resizeDimensions n).getDimensionsCount = n ∧
      (∀ j, j < min A.getDimensionsCount n →
        (A.resizeDimensions n).getDimension j = A.getDimension j) ∧
      (A.resizeDimensions n).getBase = A.getBase ∧
      (A.resizeDimensions n).mElements = A.mElements ∧
      (A.resizeDimensions n).isValid = A.isValid) ∧
    (∀ (n k : Nat) (E : SCEVPtr), k < n →
      ((A.resizeDimensions n).setDimension k E).getDimension k = E ∧
      ((A.resizeDimensions n).setDimension k E).getDimensionsCount = n ∧
      ((A.resizeDimensions n).setDimension k E).getBase = A.getBase ∧
      ((A.resizeDimensions n).setDimension k E).mElements = A.mElements ∧
      ((A.resizeDimensions n).setDimension k E).isValid = A.isValid) ∧
    (∀ (B : ValuePtr) (n k : Nat) (E : SCEVPtr), k < n →
      (Array.ctor B).getDimensionsCount = 0 ∧
      (((Array.ctor B).resizeDimensions n).setDimension k E).getDimension k = E ∧
      (((Array.ctor B).resizeDimensions n).setDimension k E).getDimensionsCount = n) := by
  have hresize : ∀ (X : Array) (n : Nat), (X.resizeDimensions n).mDims.length = n := by
    intro X n
    simp only [Array.resizeDimensions, Array.resizeVector, List.length_append, List.length_take,
      List.length_replicate]
    omega
  have hadd : ∀ (X : Array) (n k : Nat) (E : SCEVPtr), k < n →
      (X.resizeDimensions n).setDimension k E =
        { X.resizeDimensions n with mDims := (X.resizeDimensions n).mDims.set k E } := by
    intro X n k E hk
    simp [Array.setDimension, hresize, hk]
  refine ⟨?_, ?_, ?_, ?_⟩
  · intro i E hi
    have hi' : i < A.mDims.length := hi
    have hset : A.setDimension i E = { A with mDims := A.mDims.set i E } := by
      simp [Array.setDimension, hi']
    refine ⟨?_, ?_, ?_, ?_, ?_, ?_⟩
    · rw [getDimension_eq_getD, hset]
      simp [List.getD_eq_getElem?_getD, hi']
    · intro j hj
      rw [getDimension_eq_getD, getDimension_eq_getD, hset]
      simp [List.getD_eq_getElem?_getD, List.getElem?_set_ne (Ne.symm hj)]
    · rw [hset]; simp [Array.getDimensionsCount]
    · rw [hset]; rfl
    · rw [hset]
    · rw [hset]; rfl
  · intro n
    refine ⟨hresize A n, ?_, rfl, rfl, rfl⟩
    intro j hj
    have hj1 : j < A.mDims.length := lt_of_lt_of_le hj (min_le_left _ _)
    have hj2 : j < n := lt_of_lt_of_le hj (min_le_right _ _)
    rw [getDimension_eq_getD, getDimension_eq_getD]
    simp only [Array.resizeDimensions, Array.resizeVector, List.getD_eq_getElem?_getD]
    have hlen : j < (List.take n A.mDims).length := by
      simp only [List.length_take]; omega
    rw [List.getElem?_append_left hlen, List.getElem?_take_of_lt hj2]
  · intro n k E hk
    have hlen := hresize A n
    refine ⟨?_, ?_, ?_, ?_, ?_⟩
    · rw [getDimension_eq_getD, hadd A n k E hk]
      simp [List.getD_eq_getElem?_getD, hlen, hk]
    · rw [hadd A n k E hk]; simp [Array.getDimensionsCount, hlen]
    · rw [hadd A n k E hk]; rfl
    · rw [hadd A n k E hk]; rfl
    · rw [hadd A n k E hk]; rfl
  · intro B n k E hk
    have hlen := hresize (Array.ctor B) n
    refine ⟨rfl, ?_, ?_⟩
    · rw [getDimension_eq_getD, hadd (Array.ctor B) n k E hk]
      simp [List.getD_eq_getElem?_getD, hlen, hk]
    · rw [hadd (Array.ctor B) n k E hk]; simp [Array.getDimensionsCount, hlen]

/-- Witness of C3: an array with the dimensions `[10, 20]`, index `1`; and an
array with one element and no dimension, resized to two dimensions. -/
theorem setDimension_replaces_by_index_witness :
    (1 < (Array.mk 7 [10, 20] [] true).getDimensionsCount ∧
      ((Array.mk 7 [10, 20] [] true).setDimension 1 30).getDimension 1 = 30) ∧
    ((Array.mk 7 [] [Array.Element.mk 8 [] false] true).resizeDimensions 2).getDimensionsCount
      = 2 :=
  ⟨⟨by decide,
      ((setDimension_replaces_by_index (Array.mk 7 [10, 20] [] true)).1 1 30 (by decide)).1⟩,
    ((setDimension_replaces_by_index (Array.mk 7 [] [Array.Element.mk 8 [] false] true)).2.1 2).1⟩

/-- C4: a new `Array` rooted at `B` has base `B`, is valid and has neither
dimensions nor elements; an `Element` built from a pointer and subscripts
without a flag is valid and holds exactly them. The validity flag of an array
is changed by `setValid` only: every other member function keeps it, so an
array that started from the constructor and is invalid has seen a
`setValid(false)`; the flag of an `Element` is the one given to its
constructor. -/
theorem fresh_array_and_element (B : ValuePtr) (P : ValuePtr) (S : ExprList) :
    (Array.ctor B).getBase = B ∧
    (Array.ctor B).isValid = true ∧
    (Array.ctor B).isDimensionsEmpty = true ∧
    (Array.ctor B).getDimensionsCount = 0 ∧
    (Array.ctor B).empty = true ∧
    (Array.ctor B).size = 0 ∧
    (Array.Element.ctorDefault P S).isValid = true ∧
    (Array.Element.ctorDefault P S).Ptr = P ∧
    (Array.Element.ctorDefault P S).Subscript = S ∧
    (∀ v, (Array.Element.ctor P S v).isValid = v) ∧
    (∀ (A : Array) (op : ArrayOp), (∀ v, op ≠ ArrayOp.setValid v) →
      (op.run A).isValid = A.isValid) ∧
    (∀ (A : Array) (v : Bool), (A.setValid v).isValid = v) ∧
    (∀ ops : List ArrayOp, (runOps (Array.ctor B) ops).isValid = false →
      ArrayOp.setValid false ∈ ops) := by
  refine ⟨rfl, rfl, rfl, rfl, rfl, rfl, rfl, rfl, rfl, fun _ => rfl, ?_, fun _ _ => rfl, ?_⟩
  · exact run_isValid_of_not_setValid
  · intro ops h
    rcases runOps_invalid_cases ops (Array.ctor B) h with h1 | h1
    · exact absurd h1 (by simp [Array.ctor, Array.isValid])
    · exact h1

/-- C8: access by index is checked against the bounds and total:
`getElement(i)` is non-null exactly when `i < size()` and then points to the
`i`-th element; `getDimension(i)` is null when `i` is not below the dimension
count and the stored expression otherwise; `setDimension(i, E)` with `i` not
below the count leaves the array as it is. -/
theorem index_access_is_checked (A : Array) (i : Nat) :
    (A.getElement i ≠ none ↔ i < A.size) ∧
    (∀ h : i < A.size, A.getElement i = some (A.mElements.get ⟨i, h⟩)) ∧
    (A.getDimensionsCount ≤ i → A.getDimension i = nullptr) ∧
    (∀ h : i < A.getDimensionsCount, A.getDimension i = A.mDims.get ⟨i, h⟩) ∧
    (∀ E, A.getDimensionsCount ≤ i →
      A.setDimension i E = A ∧
      (A.setDimension i E).getDimensionsCount = A.getDimensionsCount ∧
      (A.setDimension i E).isValid = A.isValid) := by
  refine ⟨?_, ?_, ?_, ?_, ?_⟩
  · unfold Array.getElement Array.size
    split
    · next h => simp [h.2]
    · next h =>
      have : ¬ i < A.mElements.length := by omega
      simp [this]
  · intro h
    have h' : 0 ≤ i ∧ i < A.mElements.length := ⟨Nat.zero_le _, h⟩
    simp [Array.getElement, h']
  · intro h
    have h' : ¬ i < A.mDims.length := Nat.not_lt.mpr h
    simp [Array.getDimension, h']
  · intro h
    have h' : 0 ≤ i ∧ i < A.mDims.length := ⟨Nat.zero_le _, h⟩
    simp [Array.getDimension, h']
  · intro E h
    have h' : ¬ i < A.mDims.length := Nat.not_lt.mpr h
    have hs : A.setDimension i E = A := by simp [Array.setDimension, h']
    rw [hs]
    exact ⟨rfl, rfl, rfl⟩

end tsar

/-! ## Properties of the alias-tree rendering -/

namespace llvm

open tsar

theorem foldl_append_eq_concatEntries {α : Type} (f : α → String) (l : List α) :
    ∀ init : String,
      l.foldl (fun OS x => OS ++ f x) init = init ++ concatEntries (l.map f) := by
  induction l with
  | nil => intro init; simp [concatEntries]
  | cons x rest ih =>
    intro init
    simp only [List.foldl_cons, List.map_cons, concatEntries]
    rw [ih, String.append_assoc]

theorem digitChar_ne_u (k : Nat) (hk : k < 10) : Nat.digitChar k ≠ 'u' := by
  interval_cases k <;> decide

theorem toDigitsCore_ne_u (fuel : Nat) :
    ∀ (n : Nat) (ds : List Char), (∀ c ∈ ds, c ≠ 'u') →
      ∀ c ∈ Nat.toDigitsCore 10 fuel n ds, c ≠ 'u' := by
  induction fuel with
  | zero => intro n ds hds c hc; exact hds c (by simpa [Nat.toDigitsCore] using hc)
  | succ fuel ih =>
    intro n ds hds c hc
    have hd : ∀ c ∈ Nat.digitChar (n % 10) :: ds, c ≠ 'u' := by
      intro c hc
      rcases List.mem_cons.mp hc with h | h
      · rw [h]; exact digitChar_ne_u _ (Nat.mod_lt _ (by decide))
      · exact hds c h
    simp only [Nat.toDigitsCore] at hc
    split at hc
    · exact hd c hc
    · exact ih _ _ hd c hc

theorem toString_nat_ne_unknown (n : Nat) : toString n ≠ "unknown" := by
  intro h
  have hdata : (toString n).data = "unknown".data := by rw [h]
  have hu : 'u' ∈ (toString n).data := by rw [hdata]; decide
  have hu' : 'u' ∈ Nat.toDigits 10 n := hu
  exact toDigitsCore_ne_u _ _ [] (by simp) 'u' hu' rfl

namespace DOTGraphTraits

theorem printUnknown_simple (R : Renderer) (OS : String) (Unknown : Value) :
    printUnknown R true OS Unknown = OS ++ (R.printAsOperand (shownValue Unknown) false ++ " ") := by
  cases Unknown with
  | call id calledValue =>
    by_cases hf : calledValue.stripPointerCasts.isFunction = true
    · simp [printUnknown, calleeOf, Value.callSiteCalledValue, shownValue, hf,
        String.append_assoc]
    · simp [printUnknown, calleeOf, Value.callSiteCalledValue, shownValue, hf,
        String.append_assoc]
  | _ =>
    simp [printUnknown, calleeOf, Value.callSiteCalledValue, shownValue, String.append_assoc]

theorem sizeText_append (size : Nat) (OS : String) :
    (if size = MemoryLocation.UnknownSize then OS ++ "unknown\\l"
      else (OS ++ toString size) ++ "\\l") = OS ++ (sizeText size ++ "\\l") := by
  unfold sizeText
  split
  · have : "unknown" ++ "\\l" = "unknown\\l" := by decide
    rw [this]
  · rw [String.append_assoc]

theorem printPointer_eq_pointerText (R : Renderer) (Ptr : Value) :
    printPointer R Ptr = pointerText R Ptr := by
  cases Ptr <;> simp [printPointer, pointerText, Value.isFunction]

theorem printCluster_detailed (R : Renderer) (OS : String) (EM : EstimateMemory) :
    printCluster R false OS EM = OS ++ clusterEntry R EM := by
  unfold printCluster clusterEntry
  by_cases ha : EM.isAmbiguous = true
  · simp only [ha, if_true, Bool.false_eq_true, if_false]
    rw [sizeText_append]
    have hf : (fun (OS : String) (Ptr : Value) => ((OS ++ "  ") ++ printPointer R Ptr) ++ "\\l") =
        (fun (OS : String) (Ptr : Value) => OS ++ ("  " ++ pointerText R Ptr ++ "\\l")) := by
      funext OS Ptr
      simp [String.append_assoc, printPointer_eq_pointerText]
    rw [hf, foldl_append_eq_concatEntries]
    simp [String.append_assoc, EstimateMemory.pointers]
  · simp only [ha, Bool.false_eq_true, if_false]
    rw [sizeText_append, printPointer_eq_pointerText]
    simp [String.append_assoc]

/-- C5, as the code has it: the edges marked as reduced precision are the
ones that leave an unknown node. For every node `N` with its children, every
child iterator `E` and every tree `G`, `getEdgeAttributes(N, E, G)` is exactly
`style=dashed` when `N` is an unknown node and the empty string when `N` is
the top node or an estimate node, whatever `E` and `G` are; so the edge from
`N` to its child `*E` is dashed exactly when `N`, the parent end, is an
unknown node, whatever the kind of the child is, and the edge from a top or
estimate parent to a child is not dashed, an unknown child included. -/
theorem getEdgeAttributes_dashed_iff_parent_end_unknown (N : AliasNode)
    (children : List AliasSubtree) (E : EdgeItr) (G : AliasTree) :
    (∀ members, N = AliasNode.AliasUnknownNode members →
      getEdgeAttributes N E G = "style=dashed") ∧
    (N = AliasNode.AliasTopNode → getEdgeAttributes N E G = "") ∧
    (∀ clusters, N = AliasNode.AliasEstimateNode clusters → getEdgeAttributes N E G = "") ∧
    (∀ (E' : EdgeItr) (G' : AliasTree), getEdgeAttributes N E' G' = getEdgeAttributes N E G) ∧
    (getEdgeAttributes N E G = "style=dashed" ↔ N.isUnknown = true) ∧
    (∀ C, (AliasSubtree.mk N children).child E = some C →
      (edgeAttributesToChild (AliasSubtree.mk N children) E G = some "style=dashed" ↔
        N.isUnknown = true)) ∧
    (∀ C, (AliasSubtree.mk N children).child E = some C → N.isUnknown = false →
      edgeAttributesToChild (AliasSubtree.mk N children) E G = some "") := by
  have hiff : getEdgeAttributes N E G = "style=dashed" ↔ N.isUnknown = true := by
    cases N <;> simp [getEdgeAttributes, AliasNode.isUnknown]
  refine ⟨?_, ?_, ?_, ?_, hiff, ?_, ?_⟩
  · intro members h; subst h; rfl
  · intro h; subst h; rfl
  · intro clusters h; subst h; rfl
  · intro E' G'; rfl
  · intro C hC
    simp only [edgeAttributesToChild, hC, AliasSubtree.node, Option.some.injEq]
    exact hiff
  · intro C hC hN
    simp [edgeAttributesToChild, hC, AliasSubtree.node, getEdgeAttributes, hN]

/-- C5 as stated fails: in the tree whose top node has one child, an unknown
node, the edge between the unknown node and its parent is the edge the child
iterator `0` of the top node stands for; its attributes are the empty string,
not `style=dashed`. So it is not the case that the edge of every unknown node
to its parent is dashed. -/
theorem unknown_child_edge_not_dashed :
    (AliasSubtree.mk AliasNode.AliasTopNode
        [AliasSubtree.mk (AliasNode.AliasUnknownNode []) []]).child 0 =
      some (AliasSubtree.mk (AliasNode.AliasUnknownNode []) []) ∧
    (AliasSubtree.mk (AliasNode.AliasUnknownNode []) []).node.isUnknown = true ∧
    getEdgeAttributes AliasNode.AliasTopNode 0
      (AliasTree.mk [AliasNode.AliasTopNode, AliasNode.AliasUnknownNode []]) = "" ∧
    edgeAttributesToChild
      (AliasSubtree.mk AliasNode.AliasTopNode
        [AliasSubtree.mk (AliasNode.AliasUnknownNode []) []]) 0
      (AliasTree.mk [AliasNode.AliasTopNode, AliasNode.AliasUnknownNode []]) ≠
        some "style=dashed" ∧
    ¬ (∀ (P C : AliasSubtree) (E : EdgeItr) (G : AliasTree),
        P.child E = some C → C.node.isUnknown = true →
        edgeAttributesToChild P E G = some "style=dashed") := by
  have h4 : edgeAttributesToChild
      (AliasSubtree.mk AliasNode.AliasTopNode
        [AliasSubtree.mk (AliasNode.AliasUnknownNode []) []]) 0
      (AliasTree.mk [AliasNode.AliasTopNode, AliasNode.AliasUnknownNode []]) ≠
        some "style=dashed" := by
    simp [edgeAttributesToChild, AliasSubtree.child, AliasSubtree.children, AliasSubtree.node,
      getEdgeAttributes, AliasNode.isUnknown]
  refine ⟨rfl, rfl, rfl, h4, ?_⟩
  intro h
  exact h4 (h _ _ 0 _ rfl rfl)

/-- C6: in summary rendering the label of an unknown node is the header
`Unknown Memory` followed by exactly one entry per member, in iteration
order; the entry of a member is the operand text of the callee when the
member is a call whose called value, with pointer casts stripped, is a
function, and the operand text of the member itself in every other case; the
entry ends with a blank. The label is computed from the members read-only:
every member has its entry and the node keeps all of them. -/
theorem unknown_label_simple (R : Renderer) (N : List Value) (G : AliasTree) :
    getNodeLabel R true (AliasNode.AliasUnknownNode N) G =
      "Unknown Memory\n" ++
        concatEntries (N.map (fun Unknown => R.printAsOperand (shownValue Unknown) false ++ " ")) ∧
    (N.map (fun Unknown => R.printAsOperand (shownValue Unknown) false ++ " ")).length =
      N.length ∧
    (∀ id calledValue, calledValue.stripPointerCasts.isFunction = true →
      shownValue (Value.call id calledValue) = calledValue.stripPointerCasts) ∧
    (∀ id calledValue, calledValue.stripPointerCasts.isFunction = false →
      shownValue (Value.call id calledValue) = Value.call id calledValue) ∧
    (∀ Unknown, Unknown.callSiteCalledValue = none → shownValue Unknown = Unknown) := by
  refine ⟨?_, by simp, ?_, ?_, ?_⟩
  · simp only [getNodeLabel, getNodeLabelUnknown]
    have hf : printUnknown R true =
        (fun (OS : String) (Unknown : Value) =>
          OS ++ (R.printAsOperand (shownValue Unknown) false ++ " ")) := by
      funext OS Unknown
      exact printUnknown_simple R OS Unknown
    rw [hf, foldl_append_eq_concatEntries]
    simp
  · intro id calledValue h; simp [shownValue, h]
  · intro id calledValue h; simp [shownValue, h]
  · intro Unknown h
    cases Unknown <;> simp_all [shownValue, Value.callSiteCalledValue]

/-- C9: in detailed rendering the label of an estimate node is the
concatenation of exactly one entry per cluster, in the order of the node. The
entry of an ambiguous cluster is `Ambiguous, size <s>` and then every pointer
value of the cluster, front first, each on a line of its own after two
blanks; the entry of an unambiguous cluster is its front pointer alone,
followed by `, size <s>`. A pointer value is shown by the host's operand text
when it is a function and by the host's full text otherwise. The text `<s>`
is `unknown` exactly when the size is `MemoryLocation::UnknownSize` and the
number otherwise. -/
theorem estimate_label_detailed (R : Renderer) (N : List EstimateMemory) (G : AliasTree) :
    getNodeLabel R false (AliasNode.AliasEstimateNode N) G =
      concatEntries (N.map (clusterEntry R)) ∧
    (N.map (clusterEntry R)).length = N.length ∧
    (∀ EM : EstimateMemory, EM.isAmbiguous = true →
      clusterEntry R EM = ("Ambiguous, size " ++ sizeText EM.getSize ++ "\\l") ++
        concatEntries ((EM.front :: EM.rest).map
          (fun Ptr => "  " ++ pointerText R Ptr ++ "\\l")) ∧
      ((EM.front :: EM.rest).map (fun Ptr => "  " ++ pointerText R Ptr ++ "\\l")).length =
        EM.rest.length + 1) ∧
    (∀ EM : EstimateMemory, EM.isAmbiguous = false →
      clusterEntry R EM = pointerText R EM.front ++ (", size " ++ sizeText EM.getSize ++ "\\l")) ∧
    (∀ name, pointerText R (Value.function name) =
      R.printAsOperand (Value.function name) true) ∧
    (∀ Ptr : Value, (∀ name, Ptr ≠ Value.function name) → pointerText R Ptr = R.print Ptr true) ∧
    (∀ size, sizeText size = "unknown" ↔ size = MemoryLocation.UnknownSize) ∧
    (∀ size, size ≠ MemoryLocation.UnknownSize → sizeText size = toString size) := by
  refine ⟨?_, by simp, ?_, ?_, ?_, ?_, ?_, ?_⟩
  · simp only [getNodeLabel, getNodeLabelEstimate]
    have hf : printCluster R false = (fun (OS : String) (EM : EstimateMemory) =>
        OS ++ clusterEntry R EM) := by
      funext OS EM
      exact printCluster_detailed R OS EM
    rw [hf, foldl_append_eq_concatEntries]
    simp
  · intro EM h; simp [clusterEntry, h]
  · intro EM h; simp [clusterEntry, h]
  · intro name; rfl
  · intro Ptr h
    cases Ptr with
    | function name => exact absurd rfl (h name)
    | ptrCast operand => rfl
    | call id calledValue => rfl
    | other id => rfl
  · intro size
    unfold sizeText
    constructor
    · intro h
      by_contra hne
      rw [if_neg hne] at h
      exact toString_nat_ne_unknown size h
    · intro h; rw [if_pos h]
  · intro size h; simp [sizeText, h]

end DOTGraphTraits

end llvm

/-! ## Properties of `collect` -/

namespace tsar

open llvm

theorem lookup_tryEmplace {κ ν : Type} [BEq κ] [LawfulBEq κ] [DecidableEq κ] (m : List (κ × ν)) (k : κ) (v : ν)
    (k' : κ) :
    (tryEmplace m k v).lookup k' = (m.lookup k').or (if k' = k then some v else none) := by
  unfold tryEmplace
  cases h : m.lookup k with
  | none =>
    simp only [List.lookup_append]
    congr 1
    by_cases hk : k' = k
    · subst hk; simp
    · have hb : (k' == k) = false := beq_eq_false_iff_ne.mpr hk
      simp [List.lookup, hb, hk]
  | some w =>
    by_cases hk : k' = k
    · subst hk; simp [h]
    · simp [hk]

theorem tryEmplace_eq_append {κ ν : Type} [BEq κ] (m : List (κ × ν)) (k : κ) (v : ν) :
    ∃ added, tryEmplace m k v = m ++ added ∧ ∀ e ∈ added, e = (k, v) ∧ m.lookup k = none := by
  unfold tryEmplace
  cases h : m.lookup k with
  | none => exact ⟨[(k, v)], rfl, by simp⟩
  | some w => exact ⟨[], by simp, by simp⟩

theorem collectLoop_of_reaches (CU : Nat) (s : DIScope) (names : List String)
    (h : ReachesCU CU s names) :
    ∀ Key, collectLoop CU s Key = (Key ++ names, true) := by
  induction h with
  | here getName getScope => intro Key; simp [collectLoop]
  | step addr getName getScope names ha hn _ ih =>
    intro Key
    simp [collectLoop, ha, hn, ih]

theorem reaches_of_collectLoop (CU : Nat) (s : DIScope) :
    ∀ Key, (collectLoop CU s Key).2 = true →
      ∃ names, ReachesCU CU s names ∧ (collectLoop CU s Key).1 = Key ++ names := by
  induction s with
  | null => intro Key h; simp [collectLoop] at h
  | node addr getName getScope ih =>
    intro Key h
    by_cases ha : addr = CU
    · subst ha
      exact ⟨[], ReachesCU.here _ _, by simp [collectLoop]⟩
    · by_cases hn : getName = ""
      · simp [collectLoop, ha, hn] at h
      · simp only [collectLoop, ha, hn, if_false] at h ⊢
        obtain ⟨names, hr, hk⟩ := ih _ h
        exact ⟨getName :: names, ReachesCU.step _ _ _ _ ha hn hr, by simp [hk]⟩

theorem functionKey_eq_some_iff (CU : Nat) (F : Function) (Key : List String) :
    functionKey CU F = some Key ↔ Recordable CU F Key := by
  constructor
  · intro h
    unfold functionKey at h
    cases hs : F.getSubprogram with
    | none => simp [hs] at h
    | some DISub =>
      simp only [hs] at h
      by_cases hu : DISub.getUnit = CU
      · by_cases hn : DISub.getName = ""
        · simp [hu, hn] at h
        · simp only [hu, hn, if_true, if_false] at h
          cases hl : collectLoop CU DISub.getScope [DISub.getName] with
          | mk K b =>
            cases b with
            | false => simp [hl] at h
            | true =>
              simp only [hl, Option.some.injEq] at h
              have h2 : (collectLoop CU DISub.getScope [DISub.getName]).2 = true := by
                rw [hl]
              obtain ⟨names, hr, hk⟩ := reaches_of_collectLoop CU DISub.getScope _ h2
              refine ⟨DISub, names, hs, hu, hn, hr, ?_⟩
              rw [hl] at hk
              simp only at hk
              rw [← h, hk]
              simp
      · simp [hu] at h
  · rintro ⟨DISub, names, hs, hu, hn, hr, rfl⟩
    unfold functionKey
    simp only [hs, hu, hn, if_true, if_false]
    rw [collectLoop_of_reaches CU _ names hr]
    simp

theorem collectFunction_eq (CU : Nat) (NH : NameHierarchyMapT) (F : Function) :
    collectFunction CU NH F =
      match functionKey CU F with
      | some Key => tryEmplace NH Key F.getName
      | none => NH := by
  unfold collectFunction functionKey
  cases F.getSubprogram with
  | none => rfl
  | some DISub =>
    simp only
    split
    · split
      · rfl
      · cases hl : collectLoop CU DISub.getScope [DISub.getName] with
        | mk K b => cases b <;> rfl
    · rfl

theorem lookup_collect (CU : Nat) (k : List String) (M : Module) :
    ∀ NH : NameHierarchyMapT,
      (collect M CU NH).lookup k =
        (NH.lookup k).or
          ((M.find? (fun F => decide (functionKey CU F = some k))).map Function.getName) := by
  induction M with
  | nil => intro NH; simp [collect]
  | cons F rest ih =>
    intro NH
    have hstep : collect (F :: rest) CU NH = collect rest CU (collectFunction CU NH F) := rfl
    rw [hstep, ih]
    cases hk : functionKey CU F with
    | none =>
      have hcf : collectFunction CU NH F = NH := by rw [collectFunction_eq, hk]
      rw [hcf]
      simp [List.find?_cons, hk]
    | some Key =>
      have hcf : collectFunction CU NH F = tryEmplace NH Key F.getName := by
        rw [collectFunction_eq, hk]
      rw [hcf, lookup_tryEmplace]
      by_cases hkk : k = Key
      · subst hkk
        simp only [List.find?_cons, hk, decide_True, if_true, Option.map_some']
        cases NH.lookup k <;> simp
      · have hne : ¬ (Key = k) := fun h => hkk h.symm
        simp [List.find?_cons, hk, hkk, hne]

end tsar

namespace tsar

open llvm

theorem recordable_key_shape (CU : Nat) (F : Function) (Key : List String)
    (h : Recordable CU F Key) :
    Key ≠ [] ∧ "" ∉ Key ∧
      ∃ DISub, F.getSubprogram = some DISub ∧ Key.getLast? = some DISub.getName := by
  obtain ⟨DISub, names, hs, _, hn, hr, rfl⟩ := h
  have hnames : ∀ s names, ReachesCU CU s names → "" ∉ names := by
    intro s names hr
    induction hr with
    | here _ _ => simp
    | step addr getName getScope names _ hn _ ih =>
      intro hmem
      rcases List.mem_cons.mp hmem with h | h
      · exact hn h.symm
      · exact ih h
  refine ⟨by simp, ?_, DISub, hs, by simp⟩
  intro hmem
  rw [List.mem_reverse] at hmem
  rcases List.mem_cons.mp hmem with h | h
  · exact hn h.symm
  · exact hnames _ _ hr h

/-- C10: `collect` records a function exactly when it has a debug subprogram
whose unit is `CU` and whose scope chain reaches `CU` through scopes with
non-empty names only: such a function is inserted with `try_emplace` under the
key of the names on the chain, outermost first and the name of the subprogram
last, with its compiled name as value; any other function leaves the table as
it is. Every key is non-empty and holds no empty name. An entry present
before is kept, and among the functions of the module with the same key the
first one in module order gives the value. -/
theorem collect_records_recordable (M : Module) (CU : Nat) (NameHierarchy : NameHierarchyMapT) :
    (∀ (F : Function) (NH : NameHierarchyMapT) (Key : List String), Recordable CU F Key →
      collectFunction CU NH F = tryEmplace NH Key F.getName) ∧
    (∀ (F : Function) (NH : NameHierarchyMapT), (∀ Key, ¬ Recordable CU F Key) →
      collectFunction CU NH F = NH) ∧
    (∀ (F : Function) (Key : List String), Recordable CU F Key →
      Key ≠ [] ∧ "" ∉ Key ∧
        ∃ DISub, F.getSubprogram = some DISub ∧ Key.getLast? = some DISub.getName) ∧
    (∀ Key v, NameHierarchy.lookup Key = some v →
      (collect M CU NameHierarchy).lookup Key = some v) ∧
    (∀ Key v, NameHierarchy.lookup Key = none →
      ((collect M CU NameHierarchy).lookup Key = some v ↔
        ∃ pre F post, M = pre ++ F :: post ∧ Recordable CU F Key ∧
          (∀ G ∈ pre, ¬ Recordable CU G Key) ∧ v = F.getName)) := by
  refine ⟨?_, ?_, recordable_key_shape CU, ?_, ?_⟩
  · intro F NH Key h
    rw [collectFunction_eq, (functionKey_eq_some_iff CU F Key).mpr h]
  · intro F NH h
    rw [collectFunction_eq]
    cases hk : functionKey CU F with
    | none => rfl
    | some Key => exact absurd ((functionKey_eq_some_iff CU F Key).mp hk) (h Key)
  · intro Key v h
    rw [lookup_collect, h]
    rfl
  · intro Key v h
    rw [lookup_collect, h]
    simp only [Option.or, Option.map_eq_some', List.find?_eq_some]
    constructor
    · rintro ⟨F, ⟨hF, pre, post, hM, hpre⟩, hv⟩
      refine ⟨pre, F, post, hM, ?_, ?_, hv.symm⟩
      · exact (functionKey_eq_some_iff CU F Key).mp (by simpa using hF)
      · intro G hG hrec
        have := hpre G hG
        have hk := (functionKey_eq_some_iff CU G Key).mpr hrec
        simp [hk] at this
    · rintro ⟨pre, F, post, hM, hrec, hpre, hv⟩
      refine ⟨F, ⟨?_, pre, post, hM, ?_⟩, hv.symm⟩
      · simpa using (functionKey_eq_some_iff CU F Key).mpr hrec
      · intro G hG
        have hk : ¬ functionKey CU G = some Key :=
          fun hk => hpre G hG ((functionKey_eq_some_iff CU G Key).mp hk)
        simp [hk]

/-- Evaluation of `collect` on a module of six functions: one recorded under a
two-level key, one with an unnamed enclosing scope, one with a key already
taken, one whose chain ends before the compile unit, one directly in the
compile unit and one without a subprogram. -/
theorem collect_eval :
    collect
      [ ⟨"f_", some ⟨"f", DIScope.node 5 "m" (DIScope.node 100 "" DIScope.null), 100⟩⟩,
        ⟨"g_", some ⟨"g", DIScope.node 6 "" (DIScope.node 100 "" DIScope.null), 100⟩⟩,
        ⟨"h_", some ⟨"f", DIScope.node 5 "m" (DIScope.node 100 "" DIScope.null), 100⟩⟩,
        ⟨"k_", some ⟨"k", DIScope.node 5 "m" DIScope.null, 100⟩⟩,
        ⟨"l_", some ⟨"l", DIScope.node 100 "" DIScope.null, 100⟩⟩,
        ⟨"n_", none⟩ ] 100 [] = [(["m", "f"], "f_"), (["l"], "l_")] := by
  decide

end tsar

/-! ## Properties of `match` -/

namespace tsar

open Fortran.semantics

theorem tryEmplaceAll_append (Map : MangledToSourceMapT) (l₁ l₂ : List (String × Symbol)) :
    tryEmplaceAll Map (l₁ ++ l₂) = tryEmplaceAll (tryEmplaceAll Map l₁) l₂ := by
  simp [tryEmplaceAll, List.foldl_append]

theorem lookup_tryEmplaceAll (k : String) (entries : List (String × Symbol)) :
    ∀ Map : MangledToSourceMapT,
      (tryEmplaceAll Map entries).lookup k = (Map.lookup k).or (entries.lookup k) := by
  induction entries with
  | nil => intro Map; simp [tryEmplaceAll]
  | cons e rest ih =>
    intro Map
    have hstep : tryEmplaceAll Map (e :: rest) = tryEmplaceAll (tryEmplace Map e.1 e.2) rest := rfl
    rw [hstep, ih, lookup_tryEmplace]
    obtain ⟨k', S⟩ := e
    by_cases hk : k = k'
    · subst hk
      cases Map.lookup k <;> simp
    · have hb : (k == k') = false := beq_eq_false_iff_ne.mpr hk
      simp [List.lookup, hb, hk]

theorem tryEmplaceAll_eq_append (entries : List (String × Symbol)) :
    ∀ Map : MangledToSourceMapT,
      ∃ added, tryEmplaceAll Map entries = Map ++ added ∧
        ∀ e ∈ added, e ∈ entries ∧ Map.lookup e.1 = none := by
  induction entries with
  | nil => intro Map; exact ⟨[], by simp [tryEmplaceAll], by simp⟩
  | cons e rest ih =>
    intro Map
    obtain ⟨a₁, h₁, hm₁⟩ := tryEmplace_eq_append Map e.1 e.2
    obtain ⟨a₂, h₂, hm₂⟩ := ih (tryEmplace Map e.1 e.2)
    refine ⟨a₁ ++ a₂, ?_, ?_⟩
    · have hstep : tryEmplaceAll Map (e :: rest) =
          tryEmplaceAll (tryEmplace Map e.1 e.2) rest := rfl
      rw [hstep, h₂, h₁, List.append_assoc]
    · intro x hx
      rcases List.mem_append.mp hx with h | h
      · obtain ⟨hx1, hx2⟩ := hm₁ x h
        subst hx1
        exact ⟨List.mem_cons_self _ _, hx2⟩
      · obtain ⟨hx1, hx2⟩ := hm₂ x h
        refine ⟨List.mem_cons_of_mem _ hx1, ?_⟩
        rw [h₁, List.lookup_append] at hx2
        cases hl : Map.lookup x.1 with
        | none => rfl
        | some w => rw [hl] at hx2; simp at hx2

mutual
theorem matchScope_eq : ∀ (s : Scope) (Names : List String) (NH : NameHierarchyMapT)
    (Map : MangledToSourceMapT),
    matchScope s Names NH Map = (Names, tryEmplaceAll Map (offeredEntries s Names NH))
  | .mk (some S) kind children, Names, NH, Map => by
    have ih := fun Map => matchChildren_eq children (Names ++ [S.name]) NH Map
    simp only [matchScope, offeredEntries, ih, tryEmplaceAll_append, List.dropLast_concat]
    by_cases hk : kind = Scope.Kind.Subprogram
    · simp only [hk, if_true]
      cases NH.lookup (Names ++ [S.name]) <;> simp [tryEmplaceAll]
    · simp [hk, tryEmplaceAll]
  | .mk none _ _, Names, NH, Map => by
    simp [matchScope, offeredEntries, tryEmplaceAll]
theorem matchChildren_eq : ∀ (cs : List Scope) (Names : List String) (NH : NameHierarchyMapT)
    (Map : MangledToSourceMapT),
    matchChildren cs Names NH Map =
      (Names, tryEmplaceAll Map (offeredEntriesChildren cs Names NH))
  | [], Names, NH, Map => by
    simp [matchChildren, offeredEntriesChildren, tryEmplaceAll]
  | c :: rest, Names, NH, Map => by
    have ih₁ := matchScope_eq c Names NH Map
    have ih₂ := fun Map => matchChildren_eq rest Names NH Map
    simp only [matchChildren, offeredEntriesChildren, ih₁, ih₂, tryEmplaceAll_append]
end

end tsar

namespace tsar

open Fortran.semantics

theorem mem_offeredEntriesChildren (e : String × Symbol) (Names : List String)
    (NH : NameHierarchyMapT) (cs : List Scope) :
    e ∈ offeredEntriesChildren cs Names NH ↔ ∃ c ∈ cs, e ∈ offeredEntries c Names NH := by
  induction cs with
  | nil => simp [offeredEntriesChildren]
  | cons c rest ih => simp [offeredEntriesChildren, ih]

mutual
theorem reaches_of_mem_offered (NH : NameHierarchyMapT) (e : String × Symbol) :
    ∀ (s : Scope) (Names : List String), e ∈ offeredEntries s Names NH →
      ∃ Target path children, ReachesScope s Names Target path ∧
        Target = Scope.mk (some e.2) Scope.Kind.Subprogram children ∧
        NH.lookup path = some e.1
  | .mk (some S) kind children, Names, h => by
    simp only [offeredEntries, List.mem_append] at h
    rcases h with h | h
    · by_cases hk : kind = Scope.Kind.Subprogram
      · subst hk
        simp only [if_true] at h
        cases hl : NH.lookup (Names ++ [S.name]) with
        | none => simp [hl] at h
        | some I =>
          simp only [hl, List.mem_singleton] at h
          subst h
          exact ⟨_, _, children, ReachesScope.root S _ children Names, rfl, hl⟩
      · simp [hk] at h
    · obtain ⟨c, hc, Target, path, ch, hr, ht, hl⟩ :=
        reaches_of_mem_offeredChildren NH e children (Names ++ [S.name]) h
      exact ⟨Target, path, ch, ReachesScope.child S kind children Names c Target path hc hr,
        ht, hl⟩
  | .mk none _ _, Names, h => by
    simp [offeredEntries] at h
theorem reaches_of_mem_offeredChildren (NH : NameHierarchyMapT) (e : String × Symbol) :
    ∀ (cs : List Scope) (Names : List String), e ∈ offeredEntriesChildren cs Names NH →
      ∃ c ∈ cs, ∃ Target path children, ReachesScope c Names Target path ∧
        Target = Scope.mk (some e.2) Scope.Kind.Subprogram children ∧
        NH.lookup path = some e.1
  | [], Names, h => by simp [offeredEntriesChildren] at h
  | c :: rest, Names, h => by
    simp only [offeredEntriesChildren, List.mem_append] at h
    rcases h with h | h
    · exact ⟨c, List.mem_cons_self _ _, reaches_of_mem_offered NH e c Names h⟩
    · obtain ⟨c', hc', hr⟩ := reaches_of_mem_offeredChildren NH e rest Names h
      exact ⟨c', List.mem_cons_of_mem _ hc', hr⟩
end

theorem mem_offered_of_reaches (NH : NameHierarchyMapT) (s : Scope) (Names : List String)
    (Target : Scope) (path : List String) (h : ReachesScope s Names Target path) :
    ∀ (S : Symbol) (children : List Scope) (k : String),
      Target = Scope.mk (some S) Scope.Kind.Subprogram children → NH.lookup path = some k →
      (k, S) ∈ offeredEntries s Names NH := by
  induction h with
  | root S' kind children' Names =>
    intro S children k ht hl
    injection ht with h1 h2 h3
    injection h1 with h1
    subst h1 h2 h3
    simp [offeredEntries, hl]
  | child S' kind children' Names Child Target path hc _ ih =>
    intro S children k ht hl
    have := ih S children k ht hl
    simp only [offeredEntries, List.mem_append]
    exact Or.inr ((mem_offeredEntriesChildren _ _ NH children').mpr ⟨Child, hc, this⟩)

theorem mem_offeredEntries_iff (NH : NameHierarchyMapT) (s : Scope) (Names : List String)
    (k : String) (S : Symbol) :
    (k, S) ∈ offeredEntries s Names NH ↔
      ∃ Target path children, ReachesScope s Names Target path ∧
        Target = Scope.mk (some S) Scope.Kind.Subprogram children ∧
        NH.lookup path = some k := by
  constructor
  · intro h
    exact reaches_of_mem_offered NH (k, S) s Names h
  · rintro ⟨Target, path, children, hr, ht, hl⟩
    exact mem_offered_of_reaches NH s Names Target path hr S children k ht hl

/-- C7: `match(Root, Names, T, Map)` with an empty name stack builds the table
by exact match of hierarchical names. The stack is empty again on return and
the map is the old map followed by the added entries; every added entry is
`(T[p], S)` for the symbol `S` of a `Subprogram` scope reached from `Root`
through scopes with a symbol, `p` being the symbol names on the path from
`Root`, outermost first. Conversely the scopes of that form whose path is a
key of `T` are exactly the ones offered to the map (in visiting order, a scope
before its children), the compiled name of each of them has an entry
afterwards, and the entry of a compiled name that was not in the map is the
symbol of the first scope offered for it. A scope without a symbol changes
nothing, its descendants included, and an entry of the old map is never
overwritten. -/
theorem matchScope_builds_table (Root : Scope) (T : NameHierarchyMapT)
    (Map : MangledToSourceMapT) :
    (matchScope Root [] T Map).1 = [] ∧
    (∃ added, (matchScope Root [] T Map).2 = Map ++ added ∧
      ∀ e ∈ added, Map.lookup e.1 = none ∧
        ∃ Target p children, ReachesScope Root [] Target p ∧
          Target = Scope.mk (some e.2) Scope.Kind.Subprogram children ∧
          T.lookup p = some e.1) ∧
    (∀ k S, (k, S) ∈ offeredEntries Root [] T ↔
      ∃ Target p children, ReachesScope Root [] Target p ∧
        Target = Scope.mk (some S) Scope.Kind.Subprogram children ∧ T.lookup p = some k) ∧
    (∀ Target p children S k, ReachesScope Root [] Target p →
      Target = Scope.mk (some S) Scope.Kind.Subprogram children → T.lookup p = some k →
      ∃ S', (matchScope Root [] T Map).2.lookup k = some S') ∧
    (∀ k S, Map.lookup k = none →
      ((matchScope Root [] T Map).2.lookup k = some S ↔
        ∃ before after, offeredEntries Root [] T = before ++ (k, S) :: after ∧
          ∀ e ∈ before, e.1 ≠ k)) ∧
    (∀ k S, Map.lookup k = some S → (matchScope Root [] T Map).2.lookup k = some S) ∧
    (∀ kind children Names Map',
      matchScope (Scope.mk none kind children) Names T Map' = (Names, Map')) := by
  rw [matchScope_eq]
  refine ⟨rfl, ?_, ?_, ?_, ?_, ?_, ?_⟩
  · obtain ⟨added, h, hmem⟩ := tryEmplaceAll_eq_append (offeredEntries Root [] T) Map
    refine ⟨added, h, ?_⟩
    intro e he
    obtain ⟨h1, h2⟩ := hmem e he
    exact ⟨h2, (mem_offeredEntries_iff T Root [] e.1 e.2).mp h1⟩
  · intro k S
    exact mem_offeredEntries_iff T Root [] k S
  · intro Target p children S k hr ht hl
    have hmem := mem_offered_of_reaches T Root [] Target p hr S children k ht hl
    simp only [lookup_tryEmplaceAll]
    cases hm : Map.lookup k with
    | some S' => exact ⟨S', rfl⟩
    | none =>
      cases hc : (offeredEntries Root [] T).lookup k with
      | some S' => exact ⟨S', rfl⟩
      | none =>
        rw [List.lookup_eq_none_iff] at hc
        have := hc (k, S) hmem
        simp at this
  · intro k S hm
    simp only [lookup_tryEmplaceAll, hm, Option.or, List.lookup_eq_some_iff]
    constructor
    · rintro ⟨l₁, l₂, h, hne⟩
      refine ⟨l₁, l₂, h, ?_⟩
      intro e he
      have := hne e he
      intro hh
      simp [hh] at this
    · rintro ⟨l₁, l₂, h, hne⟩
      refine ⟨l₁, l₂, h, ?_⟩
      intro e he
      have := hne e he
      simp only [bne_iff_ne, ne_eq]
      exact fun hh => this hh.symm
  · intro k S hm
    simp [lookup_tryEmplaceAll, hm]
  · intro kind children Names Map'
    simp [matchScope]

end tsar

namespace tsar

open Fortran.semantics

/-- Evaluation of `match` on a module scope with a nested subprogram, a
scope without a symbol and two sibling subprograms of the same name. -/
theorem matchScope_eval :
    matchScope
      (Scope.mk (some ⟨1, "m"⟩) Scope.Kind.Module
        [ Scope.mk (some ⟨2, "f"⟩) Scope.Kind.Subprogram
            [Scope.mk (some ⟨3, "g"⟩) Scope.Kind.Subprogram []],
          Scope.mk none Scope.Kind.Block [Scope.mk (some ⟨4, "h"⟩) Scope.Kind.Subprogram []],
          Scope.mk (some ⟨5, "f"⟩) Scope.Kind.Subprogram [] ])
      [] [(["m", "f"], "f_"), (["m", "f", "g"], "g_"), (["h"], "h_"), (["m", "h"], "h2_")] []
      = ([], [("f_", ⟨2, "f"⟩), ("g_", ⟨3, "g"⟩)]) := by
  decide

end tsar

/-! ## Properties of `printLoops` -/

namespace tsar

open llvm

theorem depth_le_forestDepth (L : Loop) (c : List Loop) (h : L ∈ c) :
    loopDepth L ≤ forestDepth c := by
  induction c with
  | nil => simp at h
  | cons x rest ih =>
    simp only [forestDepth]
    rcases List.mem_cons.mp h with h | h
    · subst h; exact le_max_left _ _
    · exact le_trans (ih h) (le_max_right _ _)

theorem forestDepth_subLoops (L : Loop) : forestDepth L.subLoops + 1 = loopDepth L := by
  cases L with
  | mk loc subs => simp [Loop.subLoops, loopDepth]

theorem forReverse_returns (body : String → Option String)
    (hbody : ∀ o, ∃ r, body o = some r) :
    ∀ (ReverseEI : Nat) (o : String), ∃ r, forReverse body 0 ReverseEI o = some r := by
  intro ReverseEI
  induction ReverseEI with
  | zero => intro o; exact ⟨o, by simp [forReverse]⟩
  | succ n ih =>
    intro o
    obtain ⟨r, hr⟩ := hbody o
    obtain ⟨r', hr'⟩ := ih r
    exact ⟨r', by simp [forReverse, hr, hr']⟩

/-- The call of `printLoops` on a whole container, from `rbegin()` to `rend()`,
returns for every finite loop forest: with a bound above the nesting depth of
the forest there is a result. -/
theorem printLoops_returns (fuel : Nat) :
    ∀ (c : List Loop) (o Offset : String), forestDepth c < fuel →
      ∃ r, printLoops fuel o Offset c 0 c.length = some r := by
  induction fuel with
  | zero => intro c o Offset h; exact absurd h (Nat.not_lt_zero _)
  | succ fuel ih =>
    intro c o Offset h
    simp only [printLoops]
    cases hrev : c.reverse with
    | nil =>
      have hc : c = [] := by simpa using hrev
      subst hc
      exact ⟨o, by simp [forReverse]⟩
    | cons L t =>
      have hmem : L ∈ c := by
        have : L ∈ c.reverse := by rw [hrev]; exact List.mem_cons_self _ _
        exact List.mem_reverse.mp this
      have hd : forestDepth L.subLoops < fuel := by
        have h1 := depth_le_forestDepth L c hmem
        have h2 := forestDepth_subLoops L
        omega
      have hderef : derefReverse c 0 = some L := by simp [derefReverse, hrev]
      apply forReverse_returns
      intro o'
      simp only [hderef]
      exact ih L.subLoops _ _ hd

/-- The output of a whole-container call depends on the container only through
its size and its last loop (the one at `rbegin()`): the other loops of the
level are never read. -/
theorem printLoops_reads_last_only (fuel : Nat) (o Offset : String) (c₁ c₂ : List Loop)
    (hlast : derefReverse c₁ 0 = derefReverse c₂ 0) (hlen : c₁.length = c₂.length) :
    printLoops fuel o Offset c₁ 0 c₁.length = printLoops fuel o Offset c₂ 0 c₂.length := by
  cases fuel with
  | zero => rfl
  | succ fuel => simp only [printLoops, hlast, hlen]

/-- C11 fails on the code: for a `LoopInfo` with the two top-level loops at
`a.c:1` and `a.c:5` (in that order, neither with sub-loops) `printLoops(o, LI)`
returns, for every bound of at least two, and has written the line of the loop
at `a.c:5` twice and no line for the loop at `a.c:1`, whereas one line per
loop, in reverse order, is `- a.c:5` followed by `- a.c:1`. The loop steps
`--ReverseEI` and never moves `ReverseI`. -/
theorem printLoops_repeats_last_loop :
    (∀ fuel, printLoopsLI (fuel + 2) "" [Loop.mk "a.c:1" [], Loop.mk "a.c:5" []] =
      some "- a.c:5\n- a.c:5\n") ∧
    linesOfLoops [Loop.mk "a.c:1" [], Loop.mk "a.c:5" []] "" = "- a.c:5\n- a.c:1\n" ∧
    (∀ fuel, printLoopsLI (fuel + 2) "" [Loop.mk "a.c:1" [], Loop.mk "a.c:5" []] ≠
      some (linesOfLoops [Loop.mk "a.c:1" [], Loop.mk "a.c:5" []] "")) := by
  have h1 : ∀ fuel, printLoopsLI (fuel + 2) "" [Loop.mk "a.c:1" [], Loop.mk "a.c:5" []] =
      some "- a.c:5\n- a.c:5\n" := by
    intro fuel
    simp [printLoopsLI, printLoops, forReverse, derefReverse, Loop.getStartLoc, Loop.subLoops]
  have h2 : linesOfLoops [Loop.mk "a.c:1" [], Loop.mk "a.c:5" []] "" = "- a.c:5\n- a.c:1\n" := by
    decide
  refine ⟨h1, h2, ?_⟩
  intro fuel
  rw [h1, h2]
  decide

/-- On a nest without siblings the code and the specification agree: a loop at
`a.c:1` with one sub-loop at `a.c:2`. -/
theorem printLoops_eval_chain :
    printLoopsLI 3 "" [Loop.mk "a.c:1" [Loop.mk "a.c:2" []]] = some "- a.c:1\n\t- a.c:2\n" ∧
    linesOfLoops [Loop.mk "a.c:1" [Loop.mk "a.c:2" []]] "" = "- a.c:1\n\t- a.c:2\n" := by
  constructor <;> decide

end tsar
